import Mathlib

/-!
Verification of the noisy-channel spelling corrector
(`spelling_correction.py`), shallowly embedded in Lean 4.

Words are `List Char` (Python strings).  The statistics store built by
`SpellingCorrector.__init__` is the structure `Stats`: the five count
tables are lookup functions returning 0 for absent keys (Python
`dict.get(key, 0)` / `defaultdict(int)`), the vocabulary is the list of
known words, and the derived totals are plain fields.  Single-character
Python string keys are modelled as `Char`, the two-character bigram key
as a `Char × Char` pair.

Real-valued log-probabilities are modelled symbolically: every finite
value the program produces is `math.log q` for a positive rational `q`,
so `LogVal.log q` represents that real and `LogVal.negInf` represents
`-float('inf')`.  Since `Real.log` is strictly monotone and injective on
positive arguments this representation is exact for equality and order.
Python expressions that can raise (`x / y` with `y = 0`,
`math.log x` with `x ≤ 0`) are modelled in `Option`: `none` means an
exception propagates.
-/

/-- Symbolic value of a Python float that is either `math.log q` for a
positive rational `q`, or `-float('inf')`. -/
inductive LogVal where
  | log : ℚ → LogVal
  | negInf : LogVal
  deriving DecidableEq, Repr

/-- Python `math.log x`: raises `ValueError` (modelled `none`) unless `0 < x`. -/
def pyLog (q : ℚ) : Option LogVal :=
  if 0 < q then some (LogVal.log q) else none

/-- Python `math.log (num / den)`: `ZeroDivisionError` when `den = 0`,
then `math.log` on the quotient. -/
def pyDivLog (num den : ℚ) : Option LogVal :=
  if den = 0 then none else pyLog (num / den)

/-- Python float addition of two log-space values:
`log a + log b = log (a * b)` (exact for the positive arguments the
program produces), and `-inf` absorbs everything. -/
def LogVal.add : LogVal → LogVal → LogVal
  | .log a, .log b => .log (a * b)
  | _, _ => .negInf

/-- Python `<` on two log-space float values: `-inf` is below every
finite value, finite values compare as their (positive) arguments. -/
def LogVal.lt : LogVal → LogVal → Bool
  | .negInf, .log _ => true
  | .log a, .log b => decide (a < b)
  | _, _ => false

/-- The in-memory statistics store built by `SpellingCorrector.__init__`:
five count tables (absent key ↦ 0), the vocabulary word list with its
frequency map, and the derived totals. -/
structure Stats where
  unigram_counts : Char → ℕ
  bigram_counts : Char × Char → ℕ
  sub_counts : Char × Char → ℕ
  del_counts : Char × Char → ℕ
  add_counts : Char × Char → ℕ
  vocab_freq : List Char → ℕ
  vocabulary : List (List Char)
  total_word_count : ℕ
  total_unigram_count : ℕ
  total_bigram_count : ℕ

/-- `self.alphabet = 'abcdefghijklmnopqrstuvwxyz'`. -/
def alphabet : List Char :=
  ['a', 'b', 'c', 'd', 'e', 'f', 'g', 'h', 'i', 'j', 'k', 'l', 'm',
   'n', 'o', 'p', 'q', 'r', 's', 't', 'u', 'v', 'w', 'x', 'y', 'z']

/-- `splits = [(word[:i], word[i:]) for i in range(len(word) + 1)]`. -/
def splits (w : List Char) : List (List Char × List Char) :=
  (List.range (w.length + 1)).map fun i => (w.take i, w.drop i)

/-- `deletes = [L + R[1:] for L, R in splits if R]`. -/
def deletes (w : List Char) : List (List Char) :=
  (splits w).filterMap fun p =>
    match p.2 with
    | [] => none
    | _ :: rest => some (p.1 ++ rest)

/-- `transposes = [L + R[1] + R[0] + R[2:] for L, R in splits if len(R) > 1]`. -/
def transposes (w : List Char) : List (List Char) :=
  (splits w).filterMap fun p =>
    match p.2 with
    | r0 :: r1 :: rest => some (p.1 ++ r1 :: r0 :: rest)
    | _ => none

/-- `replaces = [L + c + R[1:] for L, R in splits if R for c in self.alphabet]`. -/
def replaces (w : List Char) : List (List Char) :=
  (splits w).flatMap fun p =>
    match p.2 with
    | [] => []
    | _ :: rest => alphabet.map fun ch => p.1 ++ ch :: rest

/-- `inserts = [L + c + R for L, R in splits for c in self.alphabet]`. -/
def inserts (w : List Char) : List (List Char) :=
  (splits w).flatMap fun p => alphabet.map fun ch => p.1 ++ ch :: p.2

/-- `SpellingCorrector._generate_candidates`: union the four edit lists,
deduplicate (`set(...)`), and keep only vocabulary members. -/
def generateCandidates (S : Stats) (w : List Char) : List (List Char) :=
  ((deletes w ++ transposes w ++ replaces w ++ inserts w).dedup).filter
    fun v => decide (v ∈ S.vocabulary)

/-- Specification-side relation: `v` is reachable from `w` by exactly one
deletion, one adjacent transposition, one substitution by an alphabet
letter, or one insertion of an alphabet letter. -/
def Edit1 (w v : List Char) : Prop :=
  (∃ xs a ys, w = xs ++ a :: ys ∧ v = xs ++ ys) ∨
  (∃ xs a b ys, w = xs ++ a :: b :: ys ∧ v = xs ++ b :: a :: ys) ∨
  (∃ xs a ch ys, ch ∈ alphabet ∧ w = xs ++ a :: ys ∧ v = xs ++ ch :: ys) ∨
  (∃ xs ch ys, ch ∈ alphabet ∧ w = xs ++ ys ∧ v = xs ++ ch :: ys)

/-!
Channel model (`SpellingCorrector._log_channel_prob`).  Both strings are
prefixed with the boundary marker, then the branch is chosen by length
comparison.  The deletion and insertion branches scan for the first
divergence keeping track of the previously matched character (Python
indexes `candidate[i-1]`, which at the first divergence `i ≥ 1` is
exactly that character; `i = 0` is unreachable because both prefixed
strings start with the marker).  A scan that exhausts the loop range
without diverging falls through to the function's final
`return -float('inf')`.
-/

/-- Deletion-branch formula at a located divergence: `prefix` is
`candidate[i-1]`, `del` is `candidate[i]`, and `bigram` is the slice
`candidate[i-1:i+1]` (always of length 2 at a reachable divergence,
mirroring the source's `len(bigram) == 2` test). -/
def delFormula (S : Stats) (pre del : Char) : Option LogVal :=
  let bigram : List Char := [pre, del]
  let bigram_count : ℕ :=
    if bigram.length = 2 then S.bigram_counts (pre, del) else S.unigram_counts pre
  pyDivLog ((S.del_counts (pre, del) : ℚ) + 1)
    ((bigram_count : ℚ) + (S.total_bigram_count : ℚ))

/-- Deletion-branch scan: walk both prefixed strings; at the first index
with `i >= len(typo) or typo[i] != candidate[i]` apply `delFormula` with
the previously matched character as prefix.  Exhausting the candidate
(impossible when the typo is strictly shorter) is the loop falling
through to `return -float('inf')`. -/
def delScan (S : Stats) (prev : Char) : List Char → List Char → Option LogVal
  | _, [] => some LogVal.negInf
  | [], c :: _ => delFormula S prev c
  | t :: ts, c :: cs => if t = c then delScan S c ts cs else delFormula S prev c

/-- Insertion-branch formula at a located divergence: `prefix` is
`candidate[i-1]`, `ad` is `typo[i]`; the context count is
`UnigramCounts[prefix]` unless the prefix is the boundary marker, in
which case it is `total_word_count`. -/
def insFormula (S : Stats) (pre ad : Char) : Option LogVal :=
  let prefix_count : ℕ :=
    if pre = '#' then S.total_word_count else S.unigram_counts pre
  pyDivLog ((S.add_counts (pre, ad) : ℚ) + 1)
    ((prefix_count : ℚ) + (S.total_unigram_count : ℚ))

/-- Insertion-branch scan: walk both prefixed strings; at the first index
with `i >= len(candidate) or typo[i] != candidate[i]` apply `insFormula`.
Exhausting the typo (impossible when it is strictly longer) is the loop
falling through to `return -float('inf')`. -/
def insScan (S : Stats) (prev : Char) : List Char → List Char → Option LogVal
  | [], _ => some LogVal.negInf
  | t :: _, [] => insFormula S prev t
  | t :: ts, c :: cs => if t = c then insScan S c ts cs else insFormula S prev t

/-- `diffs = [(i, typo[i], candidate[i]) for i in range(len(typo)) if
typo[i] != candidate[i]]`, with the running index made explicit. -/
def diffsFrom : ℕ → List Char → List Char → List (ℕ × Char × Char)
  | _, [], _ => []
  | _, _ :: _, [] => []
  | i, t :: ts, c :: cs =>
    if t ≠ c then (i, t, c) :: diffsFrom (i + 1) ts cs else diffsFrom (i + 1) ts cs

/-- Equal-length branch of `_log_channel_prob`: one diff is a
substitution, two adjacent swapped diffs are a transposition, anything
else falls through to `return -float('inf')`. -/
def eqCase (S : Stats) (t c : List Char) : Option LogVal :=
  match diffsFrom 0 t c with
  | [(_, tch, cch)] =>
    pyDivLog ((S.sub_counts (cch, tch) : ℚ) + 1)
      ((S.unigram_counts cch : ℚ) + (S.total_unigram_count : ℚ))
  | [(i1, t1, c1), (i2, t2, c2)] =>
    if i2 = i1 + 1 ∧ t1 = c2 ∧ t2 = c1 then
      pyDivLog 1 (S.total_word_count : ℚ)
    else some LogVal.negInf
  | _ => some LogVal.negInf

/-- `SpellingCorrector._log_channel_prob`: prefix both strings with the
boundary marker `'#'` and dispatch on the length comparison. -/
def logChannelProb (S : Stats) (typo cand : List Char) : Option LogVal :=
  let t : List Char := '#' :: typo
  let c : List Char := '#' :: cand
  if t.length < c.length then delScan S '#' t c
  else if c.length < t.length then insScan S '#' t c
  else eqCase S t c

/-!
Prior model, scoring and the public `correct` entry point.  Python's
`max(scored_candidates, key=scored_candidates.get)` iterates the scored
candidates in insertion order and keeps the first maximal one; candidate
order in this model is the (deduplicated) generation order.  Lowercasing
is `str.lower`, modelled by `Char.toLower` (identical on ASCII).
-/

/-- `SpellingCorrector._log_prior_prob`:
`log((vocab.get(word, 0) + 1) / (total_word_count + len(vocabulary)))`. -/
def logPrior (S : Stats) (word : List Char) : Option LogVal :=
  pyDivLog ((S.vocab_freq word : ℚ) + 1)
    ((S.total_word_count : ℚ) + (S.vocabulary.length : ℚ))

/-- Score of one candidate: `log_prior + log_channel`; an exception in
either sub-computation propagates. -/
def scoreCand (S : Stats) (word cand : List Char) : Option LogVal :=
  match logPrior S cand, logChannelProb S word cand with
  | some p, some ch => some (LogVal.add p ch)
  | _, _ => none

/-- First maximal-score candidate (Python `max` keeps the earliest item
on ties: the running best is replaced only by a strictly larger score). -/
def pickMax : (List Char × LogVal) → List (List Char × LogVal) → List Char
  | best, [] => best.1
  | best, x :: xs => if LogVal.lt best.2 x.2 then pickMax x xs else pickMax best xs

/-- `SpellingCorrector.correct`: lowercase, return vocabulary hits
unchanged, return the original input when no candidate exists, otherwise
score every candidate and return the arg-max.  `none` models an
exception escaping (never happens when the smoothing totals are
positive). -/
def correct (S : Stats) (original : List Char) : Option (List Char) :=
  let word := original.map Char.toLower
  if word ∈ S.vocabulary then some word
  else
    let candidates := generateCandidates S word
    if candidates = [] then some original
    else
      match candidates.mapM fun cand => (scoreCand S word cand).map fun v => (cand, v) with
      | none => none
      | some [] => some original
      | some (x :: xs) => some (pickMax x xs)

/-- The 26 uppercase ASCII letters (for stating claims about casing). -/
def upperAlphabet : List Char :=
  ['A', 'B', 'C', 'D', 'E', 'F', 'G', 'H', 'I', 'J', 'K', 'L', 'M',
   'N', 'O', 'P', 'Q', 'R', 'S', 'T', 'U', 'V', 'W', 'X', 'Y', 'Z']

/-!
Construction (`__init__` / `_load_counts`).  File parsing is collapsed
to pre-parsed `(key, count)` row lists; a missing file (Python
`FileNotFoundError`) makes `_load_counts` print a message and call
`exit(1)`, which terminates the process — it does not raise an
exception the caller could receive.  `PyResult` distinguishes a normal
value, a raised exception, and a process exit.
-/

/-- Exceptions relevant to construction.  `dataLoadError` is the error
type the specification postulates; the source defines no such type. -/
inductive PyExc where
  | dataLoadError : PyExc
  | other : PyExc
  deriving DecidableEq

/-- Outcome of running a piece of Python code: a value, a raised
exception propagating to the caller, or a process exit. -/
inductive PyResult (A : Type) where
  | ok : A → PyResult A
  | raised : PyExc → PyResult A
  | exited : ℕ → PyResult A

/-- Sequencing: exceptions and exits short-circuit. -/
def PyResult.bind {A B : Type} : PyResult A → (A → PyResult B) → PyResult B
  | .ok a, f => f a
  | .raised e, _ => .raised e
  | .exited n, _ => .exited n

/-- `SpellingCorrector._load_counts`: an unreadable source (`none`)
prints an error and exits the process with status 1; a readable one
yields its parsed rows. -/
def loadCounts {K : Type} (file : Option (List (K × ℕ))) : PyResult (List (K × ℕ)) :=
  match file with
  | none => PyResult.exited 1
  | some rows => PyResult.ok rows

/-- Dictionary lookup with default 0 built from rows; a repeated key
keeps its last assignment, as in a Python dict. -/
def tableGet {K : Type} [DecidableEq K] (rows : List (K × ℕ)) (k : K) : ℕ :=
  (List.lookup k rows.reverse).getD 0

/-- `sum(dict.values())` for the dictionary built from rows. -/
def tableTotal {K : Type} [DecidableEq K] (rows : List (K × ℕ)) : ℕ :=
  ((rows.map Prod.fst).dedup.map (tableGet rows)).sum

/-- `SpellingCorrector.__init__`: load the six sources in order and
build the statistics store; the first unreadable source terminates
construction, so no partial object is produced. -/
def mkCorrector (uni : Option (List (Char × ℕ)))
    (big sub del add : Option (List ((Char × Char) × ℕ)))
    (voc : Option (List (List Char × ℕ))) : PyResult Stats :=
  (loadCounts uni).bind fun urows =>
  (loadCounts big).bind fun brows =>
  (loadCounts sub).bind fun srows =>
  (loadCounts del).bind fun drows =>
  (loadCounts add).bind fun arows =>
  (loadCounts voc).bind fun vrows =>
  PyResult.ok
    { unigram_counts := fun ch => tableGet urows ch
      bigram_counts := fun k => tableGet brows k
      sub_counts := fun k => tableGet srows k
      del_counts := fun k => tableGet drows k
      add_counts := fun k => tableGet arows k
      vocab_freq := fun w => tableGet vrows w
      vocabulary := (vrows.map Prod.fst).dedup
      total_word_count := tableTotal vrows
      total_unigram_count := tableTotal urows
      total_bigram_count := tableTotal brows }

/-- A small concrete store used to instantiate theorems with
hypotheses: vocabulary `{"ab": 3}`, empty count tables, positive
smoothing totals. -/
def demoStats : Stats where
  unigram_counts := fun _ => 0
  bigram_counts := fun _ => 0
  sub_counts := fun _ => 0
  del_counts := fun _ => 0
  add_counts := fun _ => 0
  vocab_freq := fun w => if w = ['a', 'b'] then 3 else 0
  vocabulary := [['a', 'b']]
  total_word_count := 3
  total_unigram_count := 5
  total_bigram_count := 7

/-- A concrete store whose vocabulary contains a single-letter word. -/
def demoStats2 : Stats where
  unigram_counts := fun _ => 0
  bigram_counts := fun _ => 0
  sub_counts := fun _ => 0
  del_counts := fun _ => 0
  add_counts := fun _ => 0
  vocab_freq := fun w => if w = ['a'] then 2 else 0
  vocabulary := [['a']]
  total_word_count := 2
  total_unigram_count := 4
  total_bigram_count := 6

theorem mem_splits {w : List Char} {p : List Char × List Char} :
    p ∈ splits w ↔ p.1 ++ p.2 = w := by
  constructor
  · intro hp
    rcases List.mem_map.1 hp with ⟨i, _, rfl⟩
    exact w.take_append_drop i
  · intro hp
    refine List.mem_map.2 ⟨p.1.length, ?_, ?_⟩
    · refine List.mem_range.2 ?_
      have : p.1.length ≤ w.length := by
        subst hp; simp
      omega
    · have h1 : w.take p.1.length = p.1 := by
        subst hp; exact List.take_left p.1 p.2
      have h2 : w.drop p.1.length = p.2 := by
        subst hp; exact List.drop_left p.1 p.2
      simp [h1, h2]

theorem mem_deletes {w v : List Char} :
    v ∈ deletes w ↔ ∃ xs a ys, w = xs ++ a :: ys ∧ v = xs ++ ys := by
  constructor
  · intro hv
    rcases List.mem_filterMap.1 hv with ⟨p, hp, hf⟩
    rcases p with ⟨L, R⟩
    rcases R with _ | ⟨a, ys⟩
    · simp at hf
    · simp only [Option.some.injEq] at hf
      exact ⟨L, a, ys, (mem_splits.1 hp).symm, hf.symm⟩
  · rintro ⟨xs, a, ys, rfl, rfl⟩
    exact List.mem_filterMap.2 ⟨(xs, a :: ys), mem_splits.2 rfl, rfl⟩

theorem mem_transposes {w v : List Char} :
    v ∈ transposes w ↔ ∃ xs a b ys, w = xs ++ a :: b :: ys ∧ v = xs ++ b :: a :: ys := by
  constructor
  · intro hv
    rcases List.mem_filterMap.1 hv with ⟨p, hp, hf⟩
    rcases p with ⟨L, R⟩
    rcases R with _ | ⟨a, _ | ⟨b, ys⟩⟩
    · simp at hf
    · simp at hf
    · simp only [Option.some.injEq] at hf
      exact ⟨L, a, b, ys, (mem_splits.1 hp).symm, hf.symm⟩
  · rintro ⟨xs, a, b, ys, rfl, rfl⟩
    exact List.mem_filterMap.2 ⟨(xs, a :: b :: ys), mem_splits.2 rfl, rfl⟩

theorem mem_replaces {w v : List Char} :
    v ∈ replaces w ↔ ∃ xs a ch ys, ch ∈ alphabet ∧ w = xs ++ a :: ys ∧ v = xs ++ ch :: ys := by
  constructor
  · intro hv
    rcases List.mem_flatMap.1 hv with ⟨p, hp, hf⟩
    rcases p with ⟨L, R⟩
    rcases R with _ | ⟨a, ys⟩
    · simp at hf
    · rcases List.mem_map.1 hf with ⟨ch, hch, rfl⟩
      exact ⟨L, a, ch, ys, hch, (mem_splits.1 hp).symm, rfl⟩
  · rintro ⟨xs, a, ch, ys, hch, rfl, rfl⟩
    refine List.mem_flatMap.2 ⟨(xs, a :: ys), mem_splits.2 rfl, ?_⟩
    exact List.mem_map.2 ⟨ch, hch, rfl⟩

theorem mem_inserts {w v : List Char} :
    v ∈ inserts w ↔ ∃ xs ch ys, ch ∈ alphabet ∧ w = xs ++ ys ∧ v = xs ++ ch :: ys := by
  constructor
  · intro hv
    rcases List.mem_flatMap.1 hv with ⟨p, hp, hf⟩
    rcases List.mem_map.1 hf with ⟨ch, hch, rfl⟩
    exact ⟨p.1, ch, p.2, hch, (mem_splits.1 hp).symm, rfl⟩
  · rintro ⟨xs, ch, ys, hch, rfl, rfl⟩
    refine List.mem_flatMap.2 ⟨(xs, ys), mem_splits.2 rfl, ?_⟩
    exact List.mem_map.2 ⟨ch, hch, rfl⟩

theorem mem_generateCandidates {S : Stats} {w v : List Char} :
    v ∈ generateCandidates S w ↔ v ∈ S.vocabulary ∧ Edit1 w v := by
  unfold generateCandidates
  rw [List.mem_filter]
  simp only [decide_eq_true_eq, List.mem_dedup, List.mem_append]
  rw [mem_deletes, mem_transposes, mem_replaces, mem_inserts]
  unfold Edit1
  rw [or_assoc, or_assoc]
  exact and_comm

theorem pyDivLog_pos {num den : ℚ} (hn : 0 < num) (hd : 0 < den) :
    pyDivLog num den = some (LogVal.log (num / den)) := by
  unfold pyDivLog pyLog
  rw [if_neg (ne_of_gt hd), if_pos (div_pos hn hd)]

theorem delScan_append (S : Stats) (xs : List Char) :
    ∀ (prev del : Char) (zs ys : List Char), (∀ z ∈ zs.head?, z ≠ del) →
      delScan S prev (xs ++ zs) (xs ++ del :: ys) =
        delFormula S (xs.getLastD prev) del := by
  induction xs with
  | nil =>
    intro prev del zs ys hz
    cases zs with
    | nil => rfl
    | cons z zs =>
      have : z ≠ del := hz z rfl
      simp [delScan, this]
  | cons x xs ih =>
    intro prev del zs ys hz
    simp only [List.cons_append, delScan, if_pos rfl, List.getLastD_cons]
    exact ih x del zs ys hz

theorem insScan_append (S : Stats) (xs : List Char) :
    ∀ (prev ad : Char) (zs ys : List Char), (∀ z ∈ zs.head?, ad ≠ z) →
      insScan S prev (xs ++ ad :: ys) (xs ++ zs) =
        insFormula S (xs.getLastD prev) ad := by
  induction xs with
  | nil =>
    intro prev ad zs ys hz
    cases zs with
    | nil => rfl
    | cons z zs =>
      have : ad ≠ z := hz z rfl
      simp [insScan, this]
  | cons x xs ih =>
    intro prev ad zs ys hz
    simp only [List.cons_append, insScan, if_pos rfl, List.getLastD_cons]
    exact ih x ad zs ys hz

theorem diffsFrom_append_eq (xs : List Char) :
    ∀ (k : ℕ) (t c : List Char),
      diffsFrom k (xs ++ t) (xs ++ c) = diffsFrom (k + xs.length) t c := by
  induction xs with
  | nil => intro k t c; simp
  | cons x xs ih =>
    intro k t c
    simp only [List.cons_append, diffsFrom, if_neg (show ¬x ≠ x by simp), List.append_eq]
    rw [ih (k + 1) t c]
    congr 1
    simp only [List.length_cons]
    omega

theorem diffsFrom_self (k : ℕ) (t : List Char) : diffsFrom k t t = [] := by
  have h := diffsFrom_append_eq t k [] []
  simpa using h

theorem diffsFrom_nil_iff :
    ∀ (k : ℕ) (t c : List Char), t.length = c.length →
      (diffsFrom k t c = [] ↔ t = c) := by
  intro k t
  induction t generalizing k with
  | nil =>
    intro c hlen
    cases c with
    | nil => simp [diffsFrom]
    | cons _ _ => simp at hlen
  | cons th ts ih =>
    intro c hlen
    cases c with
    | nil => simp at hlen
    | cons ch cs =>
      simp only [List.length_cons] at hlen
      by_cases h : th = ch
      · subst h
        simp only [diffsFrom, if_neg (by simp : ¬th ≠ th)]
        rw [ih (k + 1) cs (by omega)]
        simp
      · simp [diffsFrom, h]

theorem diffsFrom_cons_elim :
    ∀ (t c : List Char) (k i : ℕ) (a b : Char) (rest : List (ℕ × Char × Char)),
      diffsFrom k t c = (i, a, b) :: rest →
      ∃ xs tr cr, t = xs ++ a :: tr ∧ c = xs ++ b :: cr ∧ a ≠ b ∧
        i = k + xs.length ∧ rest = diffsFrom (i + 1) tr cr := by
  intro t
  induction t with
  | nil => intro c k i a b rest h; simp [diffsFrom] at h
  | cons th ts ih =>
    intro c k i a b rest h
    cases c with
    | nil => simp [diffsFrom] at h
    | cons ch cs =>
      by_cases hne : th = ch
      · subst hne
        simp only [diffsFrom, if_neg (by simp : ¬th ≠ th)] at h
        rcases ih cs (k + 1) i a b rest h with ⟨xs, tr, cr, h1, h2, h3, h4, h5⟩
        exact ⟨th :: xs, tr, cr, by simp [h1], by simp [h2], h3,
          by simp only [List.length_cons]; omega, h5⟩
      · simp only [diffsFrom, if_pos hne] at h
        rw [List.cons.injEq] at h
        obtain ⟨h1, h2⟩ := h
        obtain ⟨rfl, rfl, rfl⟩ : k = i ∧ th = a ∧ ch = b := by
          simpa [Prod.ext_iff] using h1
        exact ⟨[], ts, cs, rfl, rfl, hne, by simp, h2.symm⟩

theorem diffsFrom_singleton_elim {t c : List Char} {k i : ℕ} {a b : Char}
    (hlen : t.length = c.length) (h : diffsFrom k t c = [(i, a, b)]) :
    ∃ xs ys, t = xs ++ a :: ys ∧ c = xs ++ b :: ys ∧ a ≠ b ∧ i = k + xs.length := by
  rcases diffsFrom_cons_elim t c k i a b [] h with ⟨xs, tr, cr, h1, h2, h3, h4, h5⟩
  have hlen2 : tr.length = cr.length := by
    rw [h1, h2] at hlen
    simp at hlen
    omega
  have : tr = cr := (diffsFrom_nil_iff (i + 1) tr cr hlen2).1 h5.symm
  subst this
  exact ⟨xs, tr, h1, h2, h3, h4⟩

theorem diffsFrom_pair_elim {t c : List Char} {k i1 i2 : ℕ} {a1 b1 a2 b2 : Char}
    (hlen : t.length = c.length)
    (h : diffsFrom k t c = [(i1, a1, b1), (i2, a2, b2)]) (hadj : i2 = i1 + 1) :
    ∃ xs ys, t = xs ++ a1 :: a2 :: ys ∧ c = xs ++ b1 :: b2 :: ys ∧
      a1 ≠ b1 ∧ a2 ≠ b2 ∧ i1 = k + xs.length := by
  rcases diffsFrom_cons_elim t c k i1 a1 b1 [(i2, a2, b2)] h with
    ⟨xs, tr, cr, h1, h2, h3, h4, h5⟩
  have hlen2 : tr.length = cr.length := by
    rw [h1, h2] at hlen
    simp at hlen
    omega
  rcases diffsFrom_singleton_elim hlen2 h5.symm with ⟨xs2, ys, g1, g2, g3, g4⟩
  have hx2 : xs2.length = 0 := by omega
  have : xs2 = [] := List.eq_nil_of_length_eq_zero hx2
  subst this
  simp only [List.nil_append] at g1 g2
  subst g1
  subst g2
  exact ⟨xs, ys, h1, h2, h3, g3, h4⟩

theorem diffsFrom_one_diff (k : ℕ) (xs ys : List Char) {a b : Char} (hab : a ≠ b) :
    diffsFrom k (xs ++ a :: ys) (xs ++ b :: ys) = [(k + xs.length, a, b)] := by
  rw [diffsFrom_append_eq]
  simp [diffsFrom, hab, diffsFrom_self]

theorem diffsFrom_swap_diff (k : ℕ) (xs ys : List Char) {a b : Char} (hab : a ≠ b) :
    diffsFrom k (xs ++ a :: b :: ys) (xs ++ b :: a :: ys) =
      [(k + xs.length, a, b), (k + xs.length + 1, b, a)] := by
  rw [diffsFrom_append_eq]
  simp [diffsFrom, hab, Ne.symm hab, diffsFrom_self]

/-- C3: for a typo shorter than the candidate (deletion error), the
channel model locates the first divergence of the marker-prefixed
strings and returns `log((del_count + 1) / (context_count +
total_bigram_count))`, where `del_count = DeletionCounts[(prefix,
deleted)]` and the context count is `BigramCounts[prefix + deleted]`
when the two-character window forms a valid bigram and
`UnigramCounts[prefix]` otherwise.  The divergence is described by the
common prefix `xs` (so `pre` is the last character of `'#' :: xs`) and
the deleted character `del`. -/
theorem log_channel_deletion_spec (S : Stats) (typo cand xs zs ys : List Char)
    (del pre : Char)
    (ht : typo = xs ++ zs) (hc : cand = xs ++ del :: ys)
    (hlen : typo.length < cand.length)
    (hz : ∀ z ∈ zs.head?, z ≠ del)
    (hpre : pre = xs.getLastD '#')
    (hpos : 0 < S.total_bigram_count) :
    logChannelProb S typo cand =
      some (LogVal.log (((S.del_counts (pre, del) : ℚ) + 1) /
        (((if ([pre, del] : List Char).length = 2 then S.bigram_counts (pre, del)
            else S.unigram_counts pre : ℕ) : ℚ) + (S.total_bigram_count : ℚ)))) := by
  subst ht hc hpre
  have hdisp : ('#' :: (xs ++ zs)).length < ('#' :: (xs ++ del :: ys)).length := by
    simpa using hlen
  show (if ('#' :: (xs ++ zs)).length < ('#' :: (xs ++ del :: ys)).length then
      delScan S '#' ('#' :: (xs ++ zs)) ('#' :: (xs ++ del :: ys))
    else if ('#' :: (xs ++ del :: ys)).length < ('#' :: (xs ++ zs)).length then
      insScan S '#' ('#' :: (xs ++ zs)) ('#' :: (xs ++ del :: ys))
    else eqCase S ('#' :: (xs ++ zs)) ('#' :: (xs ++ del :: ys))) = _
  rw [if_pos hdisp]
  have hre : ('#' :: (xs ++ zs)) = ('#' :: xs) ++ zs := by simp
  have hre2 : ('#' :: (xs ++ del :: ys)) = ('#' :: xs) ++ del :: ys := by simp
  rw [hre, hre2, delScan_append S ('#' :: xs) '#' del zs ys hz, List.getLastD_cons]
  show pyDivLog _ _ = _
  have h2 : ([xs.getLastD '#', del] : List Char).length = 2 := rfl
  rw [if_pos h2]
  have hq : (0 : ℚ) < (S.total_bigram_count : ℚ) := by exact_mod_cast hpos
  have hb : (0 : ℚ) ≤ (S.bigram_counts (xs.getLastD '#', del) : ℚ) := by positivity
  exact pyDivLog_pos (by positivity) (by linarith)

/-- C4: for a typo longer than the candidate (insertion error), the
channel model locates the first divergence of the marker-prefixed
strings and returns `log((add_count + 1) / (context_count +
total_unigram_count))`, where `add_count = InsertionCounts[(prefix,
added)]` and the context count is `UnigramCounts[prefix]`, except that
it is `total_word_count` when the prefix is the boundary marker
(insertion at the very start of the word). -/
theorem log_channel_insertion_spec (S : Stats) (typo cand xs zs ys : List Char)
    (ad pre : Char)
    (ht : typo = xs ++ ad :: ys) (hc : cand = xs ++ zs)
    (hlen : cand.length < typo.length)
    (hz : ∀ z ∈ zs.head?, ad ≠ z)
    (hpre : pre = xs.getLastD '#')
    (hpos : 0 < S.total_unigram_count) :
    logChannelProb S typo cand =
      some (LogVal.log (((S.add_counts (pre, ad) : ℚ) + 1) /
        (((if pre = '#' then S.total_word_count else S.unigram_counts pre : ℕ) : ℚ) +
          (S.total_unigram_count : ℚ)))) := by
  subst ht hc hpre
  have hd1 : ¬ ('#' :: (xs ++ ad :: ys)).length < ('#' :: (xs ++ zs)).length := by
    simp only [List.length_cons]
    omega
  have hd2 : ('#' :: (xs ++ zs)).length < ('#' :: (xs ++ ad :: ys)).length := by
    simpa using hlen
  show (if ('#' :: (xs ++ ad :: ys)).length < ('#' :: (xs ++ zs)).length then
      delScan S '#' ('#' :: (xs ++ ad :: ys)) ('#' :: (xs ++ zs))
    else if ('#' :: (xs ++ zs)).length < ('#' :: (xs ++ ad :: ys)).length then
      insScan S '#' ('#' :: (xs ++ ad :: ys)) ('#' :: (xs ++ zs))
    else eqCase S ('#' :: (xs ++ ad :: ys)) ('#' :: (xs ++ zs))) = _
  rw [if_neg hd1, if_pos hd2]
  have hre : ('#' :: (xs ++ ad :: ys)) = ('#' :: xs) ++ ad :: ys := by simp
  have hre2 : ('#' :: (xs ++ zs)) = ('#' :: xs) ++ zs := by simp
  rw [hre, hre2, insScan_append S ('#' :: xs) '#' ad zs ys hz, List.getLastD_cons]
  show pyDivLog _ _ = _
  have hq : (0 : ℚ) < (S.total_unigram_count : ℚ) := by exact_mod_cast hpos
  have hb : (0 : ℚ) ≤
      (((if xs.getLastD '#' = '#' then S.total_word_count
          else S.unigram_counts (xs.getLastD '#') : ℕ) : ℚ)) := by positivity
  exact pyDivLog_pos (by positivity) (by linarith)

/-- Witness for C3 at the concrete pair typo `"a"`, candidate `"ab"`. -/
theorem log_channel_deletion_spec_witness :
    0 < demoStats.total_bigram_count ∧
      logChannelProb demoStats ['a'] ['a', 'b'] =
        some (LogVal.log (((demoStats.del_counts ('a', 'b') : ℚ) + 1) /
          (((if (['a', 'b'] : List Char).length = 2 then demoStats.bigram_counts ('a', 'b')
              else demoStats.unigram_counts 'a' : ℕ) : ℚ) +
            (demoStats.total_bigram_count : ℚ)))) :=
  ⟨by decide,
    log_channel_deletion_spec demoStats ['a'] ['a', 'b'] ['a'] [] [] 'b' 'a'
      rfl rfl (by decide) (by simp) rfl (by decide)⟩

/-- Witness for C4 at the concrete pair typo `"ab"`, candidate `"a"`. -/
theorem log_channel_insertion_spec_witness :
    0 < demoStats.total_unigram_count ∧
      logChannelProb demoStats ['a', 'b'] ['a'] =
        some (LogVal.log (((demoStats.add_counts ('a', 'b') : ℚ) + 1) /
          (((if ('a' : Char) = '#' then demoStats.total_word_count
              else demoStats.unigram_counts 'a' : ℕ) : ℚ) +
            (demoStats.total_unigram_count : ℚ)))) :=
  ⟨by decide,
    log_channel_insertion_spec demoStats ['a', 'b'] ['a'] ['a'] [] [] 'b' 'a'
      rfl rfl (by decide) (by simp) rfl (by decide)⟩

theorem diffsFrom_hash (t c : List Char) :
    diffsFrom 0 ('#' :: t) ('#' :: c) = diffsFrom 1 t c := by
  have h := diffsFrom_append_eq ['#'] 0 t c
  simpa using h

theorem logChannelProb_len_eq {S : Stats} {typo cand : List Char}
    (hlen : typo.length = cand.length) :
    logChannelProb S typo cand = eqCase S ('#' :: typo) ('#' :: cand) := by
  show (if ('#' :: typo).length < ('#' :: cand).length then
      delScan S '#' ('#' :: typo) ('#' :: cand)
    else if ('#' :: cand).length < ('#' :: typo).length then
      insScan S '#' ('#' :: typo) ('#' :: cand)
    else eqCase S ('#' :: typo) ('#' :: cand)) = _
  rw [if_neg (by simp [hlen]), if_neg (by simp [hlen])]

/-- C2: for a typo and candidate of equal length (hence equal length
after marker-prefixing): exactly one differing position gives a
substitution score `log((SubstitutionCounts[(candidate_char,
typo_char)] + 1) / (UnigramCounts[candidate_char] +
total_unigram_count))`; exactly two adjacent differing positions with
swapped characters give the flat transposition score
`log(1 / total_word_count)`; any other differing pattern yields
negative infinity, without raising.  A single differing position is
expressed by a shared prefix `xs` and shared suffix `ys`. -/
theorem log_channel_equal_length_spec (S : Stats) (typo cand : List Char)
    (hlen : typo.length = cand.length)
    (htu : 0 < S.total_unigram_count) (htw : 0 < S.total_word_count) :
    (∀ (xs ys : List Char) (a b : Char), a ≠ b →
      typo = xs ++ a :: ys → cand = xs ++ b :: ys →
      logChannelProb S typo cand =
        some (LogVal.log (((S.sub_counts (b, a) : ℚ) + 1) /
          ((S.unigram_counts b : ℚ) + (S.total_unigram_count : ℚ))))) ∧
    (∀ (xs ys : List Char) (a b : Char), a ≠ b →
      typo = xs ++ a :: b :: ys → cand = xs ++ b :: a :: ys →
      logChannelProb S typo cand =
        some (LogVal.log (1 / (S.total_word_count : ℚ)))) ∧
    ((¬ ∃ (xs ys : List Char) (a b : Char), a ≠ b ∧
        typo = xs ++ a :: ys ∧ cand = xs ++ b :: ys) →
     (¬ ∃ (xs ys : List Char) (a b : Char), a ≠ b ∧
        typo = xs ++ a :: b :: ys ∧ cand = xs ++ b :: a :: ys) →
      logChannelProb S typo cand = some LogVal.negInf) := by
  refine ⟨?_, ?_, ?_⟩
  · rintro xs ys a b hab rfl rfl
    rw [logChannelProb_len_eq hlen]
    unfold eqCase
    rw [diffsFrom_hash, diffsFrom_one_diff 1 xs ys hab]
    show pyDivLog _ _ = _
    have hq : (0 : ℚ) < (S.total_unigram_count : ℚ) := by exact_mod_cast htu
    have hb : (0 : ℚ) ≤ (S.unigram_counts b : ℚ) := by positivity
    exact pyDivLog_pos (by positivity) (by linarith)
  · rintro xs ys a b hab rfl rfl
    rw [logChannelProb_len_eq hlen]
    unfold eqCase
    rw [diffsFrom_hash, diffsFrom_swap_diff 1 xs ys hab]
    show (if 1 + xs.length + 1 = 1 + xs.length + 1 ∧ a = a ∧ b = b then
        pyDivLog 1 (S.total_word_count : ℚ) else some LogVal.negInf) = _
    rw [if_pos ⟨rfl, rfl, rfl⟩]
    exact pyDivLog_pos one_pos (by exact_mod_cast htw)
  · intro h1 h2
    rw [logChannelProb_len_eq hlen]
    unfold eqCase
    rw [diffsFrom_hash]
    rcases hD : diffsFrom 1 typo cand with _ | ⟨⟨i, a, b⟩, rest⟩
    · rfl
    rcases rest with _ | ⟨⟨i2, a2, b2⟩, rest2⟩
    · rcases diffsFrom_singleton_elim hlen hD with ⟨xs, ys, hx1, hx2, hx3, _⟩
      exact absurd ⟨xs, ys, a, b, hx3, hx1, hx2⟩ h1
    rcases rest2 with _ | ⟨e3, rest3⟩
    · show (if i2 = i + 1 ∧ a = b2 ∧ a2 = b then
          pyDivLog 1 (S.total_word_count : ℚ) else some LogVal.negInf) = _
      by_cases hcond : i2 = i + 1 ∧ a = b2 ∧ a2 = b
      · rcases diffsFrom_pair_elim hlen hD hcond.1 with ⟨xs, ys, hx1, hx2, hx3, hx4, _⟩
        obtain ⟨_, hc2, hc3⟩ := hcond
        have hcand : cand = xs ++ a2 :: a :: ys := by rw [hx2, ← hc3, ← hc2]
        have hne : a ≠ a2 := by rw [hc3]; exact hx3
        exact absurd ⟨xs, ys, a, a2, hne, hx1, hcand⟩ h2
      · rw [if_neg hcond]
    · rfl

/-- Witness for C2 at the concrete pair typo `"a"`, candidate `"b"`
(one differing position, a substitution). -/
theorem log_channel_equal_length_spec_witness :
    0 < demoStats.total_unigram_count ∧
      logChannelProb demoStats ['a'] ['b'] =
        some (LogVal.log (((demoStats.sub_counts ('b', 'a') : ℚ) + 1) /
          ((demoStats.unigram_counts 'b' : ℚ) + (demoStats.total_unigram_count : ℚ)))) :=
  ⟨by decide,
    (log_channel_equal_length_spec demoStats ['a'] ['b'] rfl (by decide) (by decide)).1
      [] [] 'a' 'b' (by decide) rfl rfl⟩

/-- C1: for every word over the 26 lowercase letters, the generated
candidate set is exactly the set of vocabulary words reachable by one
deletion, one adjacent transposition, one substitution, or one
insertion over the 26-letter alphabet: membership in the generated set
is equivalent to vocabulary membership together with `Edit1`
reachability. -/
theorem generate_candidates_exact (S : Stats) (w v : List Char)
    (hw : ∀ ch ∈ w, ch ∈ alphabet) :
    v ∈ generateCandidates S w ↔ v ∈ S.vocabulary ∧ Edit1 w v :=
  mem_generateCandidates

/-- Witness for C1: the vocabulary word `"ab"` is a substitution
neighbour of `"ax"`. -/
theorem generate_candidates_exact_witness :
    (∀ ch ∈ (['a', 'x'] : List Char), ch ∈ alphabet) ∧
      (['a', 'b'] ∈ generateCandidates demoStats ['a', 'x'] ↔
        ['a', 'b'] ∈ demoStats.vocabulary ∧ Edit1 ['a', 'x'] ['a', 'b']) :=
  ⟨by decide, generate_candidates_exact demoStats ['a', 'x'] ['a', 'b'] (by decide)⟩

/-- C8 counterexample: with a single-letter word in the vocabulary the
candidate set for the empty input is NOT empty — the insertion edits of
the empty word are the 26 single letters, and those that are vocabulary
words survive the filter. -/
theorem generate_candidates_empty_input_counterexample :
    generateCandidates demoStats2 [] ≠ [] := by decide

/-- C8 (amended): for the empty string as input the candidate set is
exactly the set of single-letter vocabulary words `[ch]` with `ch` in
the alphabet; in particular it is empty only when the vocabulary
contains no such word. -/
theorem generate_candidates_empty_input_amended (S : Stats) (v : List Char) :
    v ∈ generateCandidates S [] ↔
      v ∈ S.vocabulary ∧ ∃ ch ∈ alphabet, v = [ch] := by
  rw [mem_generateCandidates]
  refine and_congr_right fun _ => ?_
  unfold Edit1
  constructor
  · rintro (⟨xs, a, ys, h, _⟩ | ⟨xs, a, b, ys, h, _⟩ |
      ⟨xs, a, ch, ys, _, h, _⟩ | ⟨xs, ch, ys, hch, h, hv⟩)
    · simp at h
    · simp at h
    · simp at h
    · rcases List.append_eq_nil.1 h.symm with ⟨rfl, rfl⟩
      exact ⟨ch, hch, by simpa using hv⟩
  · rintro ⟨ch, hch, rfl⟩
    exact Or.inr (Or.inr (Or.inr ⟨[], ch, [], hch, rfl, rfl⟩))

theorem toLower_alphabet : ∀ ch ∈ alphabet, ch.toLower = ch := by decide

theorem toLower_upperAlphabet : ∀ ch ∈ upperAlphabet, ch.toLower ≠ ch := by decide

theorem map_toLower_self {w : List Char} (h : ∀ ch ∈ w, ch ∈ alphabet) :
    w.map Char.toLower = w := by
  have h2 : ∀ ch ∈ w, Char.toLower ch = id ch := fun ch hch =>
    toLower_alphabet ch (h ch hch)
  rw [List.map_congr_left h2, List.map_id]

theorem map_id_forall (f : Char → Char) :
    ∀ (l : List Char), l.map f = l → ∀ x ∈ l, f x = x := by
  intro l
  induction l with
  | nil => simp
  | cons a l ih =>
    intro h x hx
    simp only [List.map_cons, List.cons.injEq] at h
    rcases List.mem_cons.1 hx with rfl | hx
    · exact h.1
    · exact ih h.2 x hx

/-- C5: a word that is in the vocabulary (vocabulary words are
lowercase alphabetic strings) is returned unchanged by `correct`. -/
theorem correct_vocab_identity (S : Stats) (w : List Char)
    (hv : w ∈ S.vocabulary) (hw : ∀ ch ∈ w, ch ∈ alphabet) :
    correct S w = some w := by
  have hmap : w.map Char.toLower = w := map_toLower_self hw
  simp only [correct]
  rw [hmap, if_pos hv]

/-- Witness for C5 at the vocabulary word `"ab"`. -/
theorem correct_vocab_identity_witness :
    ['a', 'b'] ∈ demoStats.vocabulary ∧
      correct demoStats ['a', 'b'] = some ['a', 'b'] :=
  ⟨by decide, correct_vocab_identity demoStats ['a', 'b'] (by decide) (by decide)⟩

/-- C6: when the lowercased input is not in the vocabulary and the
candidate generator yields nothing, `correct` returns the original
input (original casing), not the lowercased form. -/
theorem correct_no_candidates_original (S : Stats) (input : List Char)
    (h1 : input.map Char.toLower ∉ S.vocabulary)
    (h2 : generateCandidates S (input.map Char.toLower) = []) :
    correct S input = some input := by
  simp only [correct]
  rw [if_neg h1, h2, if_pos rfl]

/-- Witness for C6 at the input `"q"` (no vocabulary neighbour). -/
theorem correct_no_candidates_original_witness :
    (['q'].map Char.toLower ∉ demoStats.vocabulary) ∧
      correct demoStats ['q'] = some ['q'] :=
  ⟨by decide, correct_no_candidates_original demoStats ['q'] (by decide) (by decide)⟩

/-- C10: an input containing an uppercase letter whose lowercased form
is a vocabulary word is returned lowercased, which differs from the
original input — `correct` does not preserve the caller's casing on
vocabulary hits. -/
theorem correct_lowercases_vocab_hit (S : Stats) (input : List Char)
    (h1 : ∃ ch ∈ input, ch ∈ upperAlphabet)
    (h2 : input.map Char.toLower ∈ S.vocabulary) :
    correct S input = some (input.map Char.toLower) ∧
      input.map Char.toLower ≠ input := by
  constructor
  · simp only [correct]
    rw [if_pos h2]
  · rcases h1 with ⟨ch, hmem, hup⟩
    intro hcontra
    exact toLower_upperAlphabet ch hup (map_id_forall Char.toLower input hcontra ch hmem)

/-- Witness for C10 at the input `"Ab"` with vocabulary word `"ab"`. -/
theorem correct_lowercases_vocab_hit_witness :
    (∃ ch ∈ (['A', 'b'] : List Char), ch ∈ upperAlphabet) ∧
      (correct demoStats ['A', 'b'] = some (['A', 'b'].map Char.toLower) ∧
        ['A', 'b'].map Char.toLower ≠ ['A', 'b']) :=
  ⟨by decide, correct_lowercases_vocab_hit demoStats ['A', 'b'] (by decide) (by decide)⟩

theorem delFormula_some (S : Stats) (hpos : 0 < S.total_bigram_count)
    (pre del : Char) : ∃ v, delFormula S pre del = some v := by
  unfold delFormula
  have hq : (0 : ℚ) < (S.total_bigram_count : ℚ) := by exact_mod_cast hpos
  have hb : (0 : ℚ) ≤
      (((if ([pre, del] : List Char).length = 2 then S.bigram_counts (pre, del)
          else S.unigram_counts pre : ℕ) : ℚ)) := by positivity
  exact ⟨_, pyDivLog_pos (by positivity) (by linarith)⟩

theorem insFormula_some (S : Stats) (hpos : 0 < S.total_unigram_count)
    (pre ad : Char) : ∃ v, insFormula S pre ad = some v := by
  unfold insFormula
  have hq : (0 : ℚ) < (S.total_unigram_count : ℚ) := by exact_mod_cast hpos
  have hb : (0 : ℚ) ≤
      (((if pre = '#' then S.total_word_count
          else S.unigram_counts pre : ℕ) : ℚ)) := by positivity
  exact ⟨_, pyDivLog_pos (by positivity) (by linarith)⟩

theorem delScan_some (S : Stats) (hpos : 0 < S.total_bigram_count) :
    ∀ (t : List Char) (prev : Char) (c : List Char),
      ∃ v, delScan S prev t c = some v := by
  intro t
  induction t with
  | nil =>
    intro prev c
    cases c with
    | nil => exact ⟨_, rfl⟩
    | cons ch cs => exact delFormula_some S hpos prev ch
  | cons th ts ih =>
    intro prev c
    cases c with
    | nil => exact ⟨_, rfl⟩
    | cons ch cs =>
      by_cases h : th = ch
      · simpa [delScan, h] using ih ch cs
      · simpa [delScan, h] using delFormula_some S hpos prev ch

theorem insScan_some (S : Stats) (hpos : 0 < S.total_unigram_count) :
    ∀ (t : List Char) (prev : Char) (c : List Char),
      ∃ v, insScan S prev t c = some v := by
  intro t
  induction t with
  | nil => intro prev c; exact ⟨_, rfl⟩
  | cons th ts ih =>
    intro prev c
    cases c with
    | nil => exact insFormula_some S hpos prev th
    | cons ch cs =>
      by_cases h : th = ch
      · simpa [insScan, h] using ih ch cs
      · simpa [insScan, h] using insFormula_some S hpos prev th

theorem eqCase_some (S : Stats) (htu : 0 < S.total_unigram_count)
    (htw : 0 < S.total_word_count) (t c : List Char) :
    ∃ v, eqCase S t c = some v := by
  unfold eqCase
  have hq : (0 : ℚ) < (S.total_unigram_count : ℚ) := by exact_mod_cast htu
  rcases diffsFrom 0 t c with _ | ⟨⟨i, a, b⟩, _ | ⟨⟨i2, a2, b2⟩, _ | _⟩⟩
  · exact ⟨_, rfl⟩
  · have hb : (0 : ℚ) ≤ (S.unigram_counts b : ℚ) := by positivity
    exact ⟨_, pyDivLog_pos (by positivity) (by linarith)⟩
  · by_cases hcond : i2 = i + 1 ∧ a = b2 ∧ a2 = b
    · refine ⟨LogVal.log (1 / (S.total_word_count : ℚ)), ?_⟩
      show (if i2 = i + 1 ∧ a = b2 ∧ a2 = b then
        pyDivLog 1 (S.total_word_count : ℚ) else some LogVal.negInf) = _
      rw [if_pos hcond]
      exact pyDivLog_pos one_pos (by exact_mod_cast htw)
    · refine ⟨LogVal.negInf, ?_⟩
      show (if i2 = i + 1 ∧ a = b2 ∧ a2 = b then
        pyDivLog 1 (S.total_word_count : ℚ) else some LogVal.negInf) = _
      rw [if_neg hcond]
  · exact ⟨_, rfl⟩

theorem logChannelProb_some (S : Stats) (htu : 0 < S.total_unigram_count)
    (htb : 0 < S.total_bigram_count) (htw : 0 < S.total_word_count)
    (typo cand : List Char) : ∃ v, logChannelProb S typo cand = some v := by
  show ∃ v, (if ('#' :: typo).length < ('#' :: cand).length then
      delScan S '#' ('#' :: typo) ('#' :: cand)
    else if ('#' :: cand).length < ('#' :: typo).length then
      insScan S '#' ('#' :: typo) ('#' :: cand)
    else eqCase S ('#' :: typo) ('#' :: cand)) = some v
  by_cases h1 : ('#' :: typo).length < ('#' :: cand).length
  · rw [if_pos h1]; exact delScan_some S htb _ '#' _
  rw [if_neg h1]
  by_cases h2 : ('#' :: cand).length < ('#' :: typo).length
  · rw [if_pos h2]; exact insScan_some S htu _ '#' _
  rw [if_neg h2]
  exact eqCase_some S htu htw _ _

theorem logPrior_some (S : Stats) (htw : 0 < S.total_word_count)
    (w : List Char) : ∃ v, logPrior S w = some v := by
  unfold logPrior
  have hq : (0 : ℚ) < (S.total_word_count : ℚ) := by exact_mod_cast htw
  have hb : (0 : ℚ) ≤ (S.vocabulary.length : ℚ) := by positivity
  exact ⟨_, pyDivLog_pos (by positivity) (by linarith)⟩

theorem scoreCand_some (S : Stats) (htu : 0 < S.total_unigram_count)
    (htb : 0 < S.total_bigram_count) (htw : 0 < S.total_word_count)
    (word cand : List Char) : ∃ v, scoreCand S word cand = some v := by
  obtain ⟨p, hp⟩ := logPrior_some S htw cand
  obtain ⟨ch, hch⟩ := logChannelProb_some S htu htb htw word cand
  exact ⟨LogVal.add p ch, by rw [scoreCand, hp, hch]⟩

theorem mapM_some {A B : Type} (f : A → Option B) :
    ∀ (l : List A), (∀ a ∈ l, ∃ b, f a = some b) → ∃ r, l.mapM f = some r := by
  intro l
  induction l with
  | nil => intro _; exact ⟨[], rfl⟩
  | cons a l ih =>
    intro h
    obtain ⟨b, hb⟩ := h a (List.mem_cons_self a l)
    obtain ⟨r, hr⟩ := ih fun x hx => h x (List.mem_cons_of_mem a hx)
    refine ⟨b :: r, ?_⟩
    rw [List.mapM_cons, hb, hr]
    rfl

/-- C7: on any input string whatsoever, `correct` produces a result and
no exception escapes, provided the constructed corrector's smoothing
totals are positive. -/
theorem correct_total (S : Stats) (w : List Char)
    (htu : 0 < S.total_unigram_count) (htb : 0 < S.total_bigram_count)
    (htw : 0 < S.total_word_count) :
    ∃ out, correct S w = some out := by
  simp only [correct]
  by_cases h1 : w.map Char.toLower ∈ S.vocabulary
  · rw [if_pos h1]; exact ⟨_, rfl⟩
  rw [if_neg h1]
  by_cases h2 : generateCandidates S (w.map Char.toLower) = []
  · rw [if_pos h2]; exact ⟨_, rfl⟩
  rw [if_neg h2]
  obtain ⟨r, hr⟩ := mapM_some
    (fun cand => (scoreCand S (w.map Char.toLower) cand).map fun v => (cand, v))
    (generateCandidates S (w.map Char.toLower))
    (fun cand _ => by
      obtain ⟨v, hv⟩ := scoreCand_some S htu htb htw (w.map Char.toLower) cand
      exact ⟨(cand, v), by simp [hv]⟩)
  rw [hr]
  cases r with
  | nil => exact ⟨_, rfl⟩
  | cons x xs => exact ⟨_, rfl⟩

/-- Witness for C7 at the out-of-vocabulary input `"ax"` (exercises the
full scoring path). -/
theorem correct_total_witness :
    0 < demoStats.total_unigram_count ∧ 0 < demoStats.total_bigram_count ∧
      0 < demoStats.total_word_count ∧
      ∃ out, correct demoStats ['a', 'x'] = some out :=
  ⟨by decide, by decide, by decide,
    correct_total demoStats ['a', 'x'] (by decide) (by decide) (by decide)⟩

/-- C9 counterexample: with the unigram source unreadable, construction
prints an error and terminates the process with exit status 1
(`exit(1)` in `_load_counts`); it does not raise a `DataLoadError` (no
such type exists in the source), so nothing propagates to the caller. -/
theorem mkCorrector_missing_counterexample :
    mkCorrector none (some []) (some []) (some []) (some []) (some []) =
        PyResult.exited 1 ∧
      mkCorrector none (some []) (some []) (some []) (some []) (some []) ≠
        PyResult.raised PyExc.dataLoadError := by
  refine ⟨rfl, fun h => ?_⟩
  rw [show mkCorrector none (some []) (some []) (some []) (some []) (some []) =
    PyResult.exited 1 from rfl] at h
  exact PyResult.noConfusion h

/-- C9 (amended): if any of the six required sources is unreadable,
construction terminates the process with exit status 1 — no corrector
object, partial or otherwise, is produced, and no exception (in
particular no `DataLoadError`) is raised to the caller. -/
theorem mkCorrector_missing_exits (uni : Option (List (Char × ℕ)))
    (big sub del add : Option (List ((Char × Char) × ℕ)))
    (voc : Option (List (List Char × ℕ)))
    (h : uni = none ∨ big = none ∨ sub = none ∨ del = none ∨
      add = none ∨ voc = none) :
    mkCorrector uni big sub del add voc = PyResult.exited 1 := by
  cases uni <;> cases big <;> cases sub <;> cases del <;> cases add <;> cases voc <;>
    simp_all [mkCorrector, loadCounts, PyResult.bind]

/-- Witness for C9 (amended) with the vocabulary source missing. -/
theorem mkCorrector_missing_exits_witness :
    ((some [] : Option (List (Char × ℕ))) = none ∨
      (some [] : Option (List ((Char × Char) × ℕ))) = none ∨
      (some [] : Option (List ((Char × Char) × ℕ))) = none ∨
      (some [] : Option (List ((Char × Char) × ℕ))) = none ∨
      (some [] : Option (List ((Char × Char) × ℕ))) = none ∨
      (none : Option (List (List Char × ℕ))) = none) ∧
      mkCorrector (some []) (some []) (some []) (some []) (some []) none =
        PyResult.exited 1 :=
  ⟨Or.inr (Or.inr (Or.inr (Or.inr (Or.inr rfl)))),
    mkCorrector_missing_exits (some []) (some []) (some []) (some []) (some []) none
      (Or.inr (Or.inr (Or.inr (Or.inr (Or.inr rfl)))))⟩
